import Mathlib

set_option maxRecDepth 4000

/-!
Verification of the `embed` tool (Go), a program that converts binary files
into Go source files containing `[]byte` literals, optionally gzip-compressing
and SHA1-hashing.  The development shallowly embeds the two source components:

* `sanitise` (embed.go:246-268): filename → identifier, together with a model
  of Go's `path/filepath.Base` on Unix and of the `unicode.IsLetter` /
  `unicode.IsNumber` classifiers restricted to ASCII (the structural theorems
  below do not depend on how non-ASCII code points are classified).

* `Embed` (embed.go:144-244): the stream encoder.  Its data path (the bytes
  written through `dst`) is modelled by pure functions producing the emitted
  text as a list of bytes (`dataBlock`, `embedText`); its control path
  (write/read/close failures, the deferred `wc.Close()`) is modelled by an
  explicit run function over an environment of failure points (`embedRun`).

Strings of the generated file are represented as `List Nat` of byte values;
names are represented as lists of Unicode code points (for the ASCII names
used in concrete instances the two coincide with the UTF-8 bytes).
-/

/-- Byte/code-point list of a Lean string literal (used for concrete inputs). -/
def strBytes (s : String) : List Nat := s.data.map Char.toNat

/-! ## The hex rendering of `Embed`'s write loop (embed.go:189-195) -/

/-- One hex digit as `fmt`'s `%x` prints it (lowercase). -/
def hexDigit (n : Nat) : Nat := if n < 10 then 48 + n else 87 + n

/-- The four characters `0x%02x` for a byte `b < 256`. -/
def entryText (b : Nat) : List Nat := [48, 120, hexDigit (b / 16 % 16), hexDigit (b % 16)]

/-- What `fmt.Fprintf(&w, "0x%02x, ", buf[i])` appends for one byte: the entry
followed by comma and space (embed.go:191). -/
def byteEntry (b : Nat) : List Nat := entryText b ++ [44, 32]

/-- One emitted data line (embed.go:189-195): tab, then the concatenation of the
`byteEntry`s with the final character (the trailing space) removed —
`data[:len(data)-1]` — then a newline. -/
def lineFor (chunk : List Nat) : List Nat :=
  9 :: ((chunk.map byteEntry).flatten).dropLast ++ [10]

/-- The chunks produced by the read loop (embed.go:179-203) on a source that
delivers `src` and then a clean end of stream: `io.ReadFull` yields chunks of
12 bytes (`err = nil`), then either a short chunk (`io.ErrUnexpectedEOF`,
line still emitted, then `n != BUF_SIZE` breaks) or a zero-length read
(`io.EOF`, `n == 0` breaks before emitting a line). -/
def readLoopF : Nat → List Nat → List (List Nat)
  | _, [] => []
  | 0, _ => []
  | fuel + 1, l => if l.length < 12 then [l] else l.take 12 :: readLoopF fuel (l.drop 12)

/-- The read loop itself; the fuel `src.length` always suffices (each recursive
call consumes 12 bytes and one unit of fuel). -/
def readLoop (src : List Nat) : List (List Nat) := readLoopF src.length src

/-! ## The emitted declaration blocks (embed.go:174-241) -/

/-- Header written at embed.go:174:
`"\n// " ++ name ++ "\nvar " ++ sanitisedName ++ " = []byte\x7b\n"`. -/
def dataHeader (name sanitisedName : List Nat) : List Nat :=
  strBytes ("\n// ") ++ name ++ strBytes ("\nvar ") ++ sanitisedName
    ++ strBytes (" = []byte\x7b\n")

/-- The data declaration block: header, one line per chunk, closing `"\x7d\n"`
(embed.go:174-208).  These are exactly the bytes `Embed` writes to `dst`
before `hasher.Sum` is called. -/
def dataBlock (name sanitisedName : List Nat) (input : List Nat) : List Nat :=
  dataHeader name sanitisedName ++ ((readLoop input).map lineFor).flatten ++ [125, 10]

/-- Chunking of the 20-byte SHA1 sum into lines of at most `BUF_SIZE = 12`
(embed.go:217-235). -/
def sumChunksF : Nat → List Nat → List (List Nat)
  | _, [] => []
  | 0, _ => []
  | fuel + 1, l => l.take 12 :: sumChunksF fuel (l.drop 12)

/-- The sum-chunking loop itself, with always-sufficient fuel. -/
def sumChunks (sum : List Nat) : List (List Nat) := sumChunksF sum.length sum

/-- The hash declaration block (embed.go:212-240):
`"\n// SHA1 hash of " ++ name ++ "\nvar " ++ sanitisedName ++ "_SHA1 = []byte\x7b\n"`,
the sum rendered with the same line format, and the closing brace. -/
def hashBlock (name sanitisedName : List Nat) (sum : List Nat) : List Nat :=
  strBytes ("\n// SHA1 hash of ") ++ name ++ strBytes ("\nvar ") ++ sanitisedName
    ++ strBytes ("_SHA1 = []byte\x7b\n")
    ++ ((sumChunks sum).map lineFor).flatten ++ [125, 10]

/-! ## Decoding hex entries back out of the emitted text -/

/-- Value of a lowercase hex digit character. -/
def hexVal (c : Nat) : Nat := if c ≤ 57 then c - 48 else c - 87

/-- Scan a byte string and decode every `0x%02x` entry in it (the inverse
direction of the hex-list syntax used by the round-trip property). -/
def decodeEntries : List Nat → List Nat
  | 48 :: 120 :: h1 :: h2 :: rest => (hexVal h1 * 16 + hexVal h2) :: decodeEntries rest
  | _ :: rest => decodeEntries rest
  | [] => []

/-- Split a byte string into lines at each newline (0x0a) character. -/
def splitLines (l : List Nat) : List (List Nat) :=
  match l with
  | [] => [[]]
  | c :: rest =>
    let r := splitLines rest
    if c = 10 then [] :: r
    else (c :: r.headI) :: r.tailD []

/-! ## The identifier sanitiser (embed.go:246-268) -/

/-- Models Go's `unicode.IsLetter`, exact on the ASCII range (categories L for
code points below 128 are exactly `A`-`Z` and `a`-`z`).  Go's tables also
accept many non-ASCII letters; the theorems below are structural and do not
depend on which further code points the classifier accepts, and every concrete
instance used in this development is ASCII. -/
def goIsLetter (r : Nat) : Bool := (65 ≤ r && r ≤ 90) || (97 ≤ r && r ≤ 122)

/-- Models Go's `unicode.IsNumber`, exact on the ASCII range (category N below
128 is exactly `0`-`9`); same remark as for `goIsLetter`. -/
def goIsNumber (r : Nat) : Bool := 48 ≤ r && r ≤ 57

/-- Drop the trailing path separators (`/`, code 47) of a path, as the loop at
the start of Go's `filepath.Base` does. -/
def dropTrailingSeps (p : List Nat) : List Nat :=
  (p.reverse.dropWhile (fun c => c = 47)).reverse

/-- Keep the suffix after the last path separator (Go's `filepath.Base`: `if
i := lastSlash(path); i >= 0 \x7b path = path[i+1:] \x7d`). -/
def afterLastSep (p : List Nat) : List Nat :=
  (p.reverse.takeWhile (fun c => c ≠ 47)).reverse

/-- Model of Go's `path/filepath.Base` on Unix (no volume names): `""`
becomes `"."`; trailing separators are dropped; everything up to the last
separator is dropped; a path of only separators becomes `"/"`. -/
def goFilepathBase (p : List Nat) : List Nat :=
  if p = [] then [46]
  else
    let r := afterLastSep (dropTrailingSeps p)
    if r = [] then [47] else r

/-- The scan loop of `sanitise` (embed.go:251-261): `first` is the flag that is
cleared when a code point is retained (and a code point is retained iff it is
a letter, or it is a number and `first` is already cleared); every other code
point becomes one underscore (code 95). -/
def sanitiseLoop (first : Bool) : List Nat → List Nat
  | [] => []
  | r :: rest =>
    if goIsLetter r || (!first && goIsNumber r) then r :: sanitiseLoop false rest
    else 95 :: sanitiseLoop first rest

/-- The function `sanitise` (embed.go:246-268): take the base of the path, run the scan
loop with `first = true`, and fall back to `"_"` when the result is empty. -/
def sanitise (name : List Nat) : List Nat :=
  let out := sanitiseLoop true (goFilepathBase name)
  if out = [] then [95] else out

/-! ## SHA1 (Go's `crypto/sha1`), over byte lists, words as `Nat % 2^32` -/

/-- Truncate to a 32-bit word. -/
def w32 (x : Nat) : Nat := x % 4294967296

/-- 32-bit rotate left by `n` of a word `x < 2^32`. -/
def rotl (n x : Nat) : Nat := w32 (Nat.lor (x <<< n) (x >>> (32 - n)))

/-- Big-endian 8-byte encoding of the 64-bit message bit length. -/
def beBytes8 (n : Nat) : List Nat :=
  [n >>> 56 % 256, n >>> 48 % 256, n >>> 40 % 256, n >>> 32 % 256,
   n >>> 24 % 256, n >>> 16 % 256, n >>> 8 % 256, n % 256]

/-- Big-endian 4-byte encoding of a 32-bit word. -/
def wordBytes (w : Nat) : List Nat := [w >>> 24 % 256, w >>> 16 % 256, w >>> 8 % 256, w % 256]

/-- SHA1 padding: `0x80`, zeros to 56 mod 64, then the bit length. -/
def sha1Pad (msg : List Nat) : List Nat :=
  msg ++ [128] ++ List.replicate ((119 - msg.length % 64) % 64) 0 ++ beBytes8 (8 * msg.length)

/-- Big-endian 32-bit words of a byte list. -/
def toWords : List Nat → List Nat
  | b0 :: b1 :: b2 :: b3 :: rest =>
    (((b0 * 256 + b1) * 256 + b2) * 256 + b3) :: toWords rest
  | _ => []

/-- Extend the 16 message words to 80:
`w[i] = rotl 1 (w[i-3] xor w[i-8] xor w[i-14] xor w[i-16])`. -/
def extendWords : Nat → List Nat → List Nat
  | 0, acc => acc
  | k + 1, acc =>
    let i := acc.length
    let nw := rotl 1 (Nat.xor (Nat.xor (acc.getD (i - 3) 0) (acc.getD (i - 8) 0))
                      (Nat.xor (acc.getD (i - 14) 0) (acc.getD (i - 16) 0)))
    extendWords k (acc ++ [nw])

/-- The SHA1 round function for round `t`. -/
def sha1F (t b c d : Nat) : Nat :=
  if t < 20 then Nat.lor (Nat.land b c) (Nat.land (Nat.xor b 4294967295) d)
  else if t < 40 then Nat.xor b (Nat.xor c d)
  else if t < 60 then Nat.lor (Nat.lor (Nat.land b c) (Nat.land b d)) (Nat.land c d)
  else Nat.xor b (Nat.xor c d)

/-- The SHA1 round constant for round `t`. -/
def sha1K (t : Nat) : Nat :=
  if t < 20 then 1518500249
  else if t < 40 then 1859775393
  else if t < 60 then 2400959708
  else 3395469782

/-- Process one 64-byte block, updating the five-word state. -/
def processBlock (h : List Nat) (block : List Nat) : List Nat :=
  let ws := extendWords 64 (toWords block)
  let s := ws.enum.foldl
    (fun (st : Nat × Nat × Nat × Nat × Nat) (tw : Nat × Nat) =>
      let a := st.1; let b := st.2.1; let c := st.2.2.1; let d := st.2.2.2.1
      let e := st.2.2.2.2
      (w32 (rotl 5 a + sha1F tw.1 b c d + e + tw.2 + sha1K tw.1), a, rotl 30 b, c, d))
    (h.getD 0 0, h.getD 1 0, h.getD 2 0, h.getD 3 0, h.getD 4 0)
  [w32 (h.getD 0 0 + s.1), w32 (h.getD 1 0 + s.2.1), w32 (h.getD 2 0 + s.2.2.1),
   w32 (h.getD 3 0 + s.2.2.2.1), w32 (h.getD 4 0 + s.2.2.2.2)]

/-- Split a padded message into 64-byte blocks. -/
def blocks64F : Nat → List Nat → List (List Nat)
  | _, [] => []
  | 0, _ => []
  | fuel + 1, l => l.take 64 :: blocks64F fuel (l.drop 64)

/-- 64-byte blocks of the padded message, with always-sufficient fuel. -/
def blocks64 (l : List Nat) : List (List Nat) := blocks64F l.length l

/-- SHA1 digest (20 bytes) of a byte list, as computed by Go's `crypto/sha1`. -/
def sha1 (msg : List Nat) : List Nat :=
  let init : List Nat := [1732584193, 4023233417, 2562383102, 271733878, 3285377520]
  (((blocks64 (sha1Pad msg)).foldl processBlock init).map wordBytes).flatten

/-! ## The full emitted text of one `Embed` call

With `-sha1`, the hasher is attached with `dst = io.MultiWriter(dst, hasher)`
(embed.go:165) *after* the compressor has replaced `dst` (embed.go:159), so the
hasher observes every byte written through `dst` before `hasher.Sum(nil)` is
called (embed.go:211) — that is, exactly the data block text, pre-compression.
With `-gzip`, every byte of the emitted text (data block and hash block) is
fed through the gzip writer to the sink. -/

/-- The text `Embed` produces (pre-compression when `-gzip` is set): the data
block, then — when `-sha1` is set — the hash block over the SHA1 sum of the
bytes the hasher observed, which are the data block's bytes. -/
def embedText (shaFlag : Bool) (name input : List Nat) : List Nat :=
  let s := sanitise name
  let db := dataBlock name s input
  db ++ (if shaFlag then hashBlock name s (sha1 db) else [])

/-! ## The control path of `Embed`: failures and the deferred close

`Embed`'s effectful behaviour is modelled by a run over an environment giving
the failure points: the source delivers `input` and then either a clean end of
stream or a non-EOF read error (`srcFails`); the `k`-th `fmt.Fprintf` through
`dst` fails iff `sinkFailAt = some k` (this counts writes through the
compressor and multi-writer alike, per the spec's single `SinkWriteError`
kind); `wc.Close()` fails iff `closeFails`.  `gzip.NewWriterLevel` cannot fail
for the constant valid level `BestCompression`, so that early return
(embed.go:149) is dead and not modelled. -/

/-- The three failure sources of one `Embed` call. -/
inductive EmbedError
  | srcErr
  | sinkErr
  | closeErr
deriving DecidableEq, Repr

/-- Failure environment for one `Embed` call. -/
structure EmbedEnv where
  input : List Nat
  srcFails : Bool
  sinkFailAt : Option Nat
  closeFails : Bool

/-- The deferred `wc.Close()` (embed.go:152-157), run at a return site: when
the compressor is present it closes it (counted by the second component) and
replaces a `nil` error by the close error — `if err == nil && e != nil
\x7b err = e \x7d`. -/
def finishClose (compressFlag closeFails : Bool) (e : Option EmbedError) :
    Option EmbedError × Nat :=
  if compressFlag then
    (if e = none && closeFails then some EmbedError.closeErr else e, 1)
  else (e, 0)

/-- The read/write loop (embed.go:179-203) with failure points.  `io.ReadFull`
on a source holding `src` further bytes returns a full 12-byte chunk with
`err = nil`, a short chunk with `io.ErrUnexpectedEOF` (then a real source
failure surfaces as `(n, err)` with the partial chunk discarded by the
`return err`), or `(0, io.EOF)` (or the real failure) when nothing is left.
Returns (loop error, next write index, number of lines written). -/
def embedLoop (failAt : Option Nat) (srcFails : Bool) (idx : Nat) (src : List Nat) :
    Option EmbedError × Nat × Nat :=
  if src.length = 0 then
    if srcFails then (some EmbedError.srcErr, idx, 0) else (none, idx, 0)
  else if src.length < 12 then
    if srcFails then (some EmbedError.srcErr, idx, 0)
    else if failAt = some idx then (some EmbedError.sinkErr, idx + 1, 0)
    else (none, idx + 1, 1)
  else
    if failAt = some idx then (some EmbedError.sinkErr, idx + 1, 0)
    else
      let r := embedLoop failAt srcFails (idx + 1) (src.drop 12)
      (r.1, r.2.1, r.2.2 + 1)
termination_by src.length
decreasing_by
  simp [List.length_drop]
  omega

/-- A run of `k` consecutive writes through `dst` starting at write index `idx`
(used for the hash block's header, its two sum lines, and its brace). -/
def writeSeq (failAt : Option Nat) (idx k : Nat) : Option EmbedError × Nat :=
  match k with
  | 0 => (none, idx)
  | k + 1 =>
    if failAt = some idx then (some EmbedError.sinkErr, idx + 1)
    else writeSeq failAt (idx + 1) k

/-- One `Embed` call's control path: the header is write 0 (embed.go:174), each
data line is one write, the closing brace one write (embed.go:205), and with
`-sha1` the hash block is four further writes (header, two lines for the
20-byte sum, brace; embed.go:210-241).  Every return site passes through
`finishClose`, mirroring the deferred close.  Returns (final error, number of
times the compressor was closed). -/
def embedRun (compressFlag shaFlag : Bool) (env : EmbedEnv) : Option EmbedError × Nat :=
  if env.sinkFailAt = some 0 then
    finishClose compressFlag env.closeFails (some EmbedError.sinkErr)
  else
    let r := embedLoop env.sinkFailAt env.srcFails 1 env.input
    match r.1 with
    | some e => finishClose compressFlag env.closeFails (some e)
    | none =>
      if env.sinkFailAt = some r.2.1 then
        finishClose compressFlag env.closeFails (some EmbedError.sinkErr)
      else if shaFlag then
        finishClose compressFlag env.closeFails (writeSeq env.sinkFailAt (r.2.1 + 1) 4).1
      else
        finishClose compressFlag env.closeFails none

/-! ## Helper lemmas: the sanitiser -/

theorem goFilepathBase_ne_nil (p : List Nat) : goFilepathBase p ≠ [] := by
  by_cases hp : p = []
  · simp [goFilepathBase, hp]
  · by_cases hr : afterLastSep (dropTrailingSeps p) = []
    · simp [goFilepathBase, hp, hr]
    · simp [goFilepathBase, hp, hr]

theorem sanitiseLoop_length (first : Bool) (l : List Nat) :
    (sanitiseLoop first l).length = l.length := by
  induction l generalizing first with
  | nil => rfl
  | cons r rest ih =>
    unfold sanitiseLoop
    split <;> simp [ih]

theorem sanitise_eq_loop (name : List Nat) :
    sanitise name = sanitiseLoop true (goFilepathBase name) := by
  by_cases h : sanitiseLoop true (goFilepathBase name) = []
  · exfalso
    have hl := sanitiseLoop_length true (goFilepathBase name)
    rw [h] at hl
    exact goFilepathBase_ne_nil name (List.length_eq_zero.mp hl.symm)
  · simp [sanitise, h]

theorem sanitiseLoop_mem (first : Bool) (l : List Nat) (c : Nat)
    (h : c ∈ sanitiseLoop first l) :
    goIsLetter c = true ∨ goIsNumber c = true ∨ c = 95 := by
  induction l generalizing first with
  | nil => simp [sanitiseLoop] at h
  | cons r rest ih =>
    unfold sanitiseLoop at h
    split at h
    · rename_i hcond
      rcases List.mem_cons.mp h with hc | hc
      · subst hc
        rcases Bool.or_eq_true_iff.mp hcond with h1 | h1
        · exact Or.inl h1
        · exact Or.inr (Or.inl (Bool.and_eq_true_iff.mp h1).2)
      · exact ih false hc
    · rcases List.mem_cons.mp h with hc | hc
      · exact Or.inr (Or.inr hc)
      · exact ih first hc

theorem sanitiseLoop_head (r : Nat) (rest : List Nat) :
    (sanitiseLoop true (r :: rest)).head? = some (if goIsLetter r then r else 95) := by
  unfold sanitiseLoop
  split <;> rename_i hcond <;> simp_all

theorem sanitiseLoop_getD (l : List Nat) (first : Bool) (i : Nat) :
    (sanitiseLoop first l).getD i 0 =
      if _h : i < l.length then
        (if goIsLetter (l.getD i 0) then l.getD i 0
         else if goIsNumber (l.getD i 0) && (!first || (l.take i).any goIsLetter) then l.getD i 0
         else 95)
      else 0 := by
  induction l generalizing first i with
  | nil => simp [sanitiseLoop]
  | cons r rest ih =>
    match i with
    | 0 =>
      by_cases hl : goIsLetter r <;> by_cases hn : goIsNumber r <;> cases first <;>
        simp_all [sanitiseLoop]
    | j + 1 =>
      have hany : ((r :: rest).take (j + 1)).any goIsLetter
          = (goIsLetter r || (rest.take j).any goIsLetter) := by
        simp [List.take_succ_cons]
      cases first with
      | false =>
        by_cases hl : goIsLetter r
        · rw [show sanitiseLoop false (r :: rest) = r :: sanitiseLoop false rest by
            simp [sanitiseLoop, hl]]
          rw [List.getD_cons_succ, ih false j]
          by_cases hj : j < rest.length <;>
            simp [hj, hany, hl, Nat.succ_lt_succ_iff]
        · by_cases hn : goIsNumber r
          · rw [show sanitiseLoop false (r :: rest) = r :: sanitiseLoop false rest by
              simp [sanitiseLoop, hl, hn]]
            rw [List.getD_cons_succ, ih false j]
            by_cases hj : j < rest.length <;>
              simp [hj, hany, hl, hn, Nat.succ_lt_succ_iff]
          · rw [show sanitiseLoop false (r :: rest) = 95 :: sanitiseLoop false rest by
              simp [sanitiseLoop, hl, hn]]
            rw [List.getD_cons_succ, ih false j]
            by_cases hj : j < rest.length <;>
              simp [hj, hany, hl, hn, Nat.succ_lt_succ_iff]
      | true =>
        by_cases hl : goIsLetter r
        · rw [show sanitiseLoop true (r :: rest) = r :: sanitiseLoop false rest by
            simp [sanitiseLoop, hl]]
          rw [List.getD_cons_succ, ih false j]
          by_cases hj : j < rest.length <;>
            simp [hj, hany, hl, Nat.succ_lt_succ_iff]
        · rw [show sanitiseLoop true (r :: rest) = 95 :: sanitiseLoop true rest by
            simp [sanitiseLoop, hl]]
          rw [List.getD_cons_succ, ih true j]
          by_cases hj : j < rest.length <;>
            simp [hj, hany, hl, Nat.succ_lt_succ_iff]

theorem sanitiseLoop_no_letters (l : List Nat) (h : l.all (fun r => !goIsLetter r)) :
    sanitiseLoop true l = List.replicate l.length 95 := by
  induction l with
  | nil => rfl
  | cons r rest ih =>
    simp only [List.all_cons, Bool.and_eq_true, Bool.not_eq_true'] at h
    unfold sanitiseLoop
    rw [if_neg (by simp [h.1])]
    simp [ih (by simpa using h.2), List.replicate_succ]

theorem sanitise_ne_nil (f : List Nat) : sanitise f ≠ [] := by
  rw [sanitise_eq_loop]
  intro h
  have hl := sanitiseLoop_length true (goFilepathBase f)
  rw [h] at hl
  exact goFilepathBase_ne_nil f (List.length_eq_zero.mp hl.symm)

theorem sanitiseLoop_no_identifier (l : List Nat)
    (h : l.all (fun r => !goIsLetter r && !goIsNumber r)) :
    sanitiseLoop true l = List.replicate l.length 95 := by
  refine sanitiseLoop_no_letters l ?_
  rw [List.all_eq_true] at h ⊢
  intro r hr
  exact (Bool.and_eq_true_iff.mp (h r hr)).1

/-! ## Claim theorems: the sanitiser -/

/-- C10: `sanitise` maps each code point of the base filename to exactly one
output code point, so the output length equals the base's length; the base
extraction never yields the empty string (the empty path has base `"."`), so
the empty-result fallback at embed.go:263-265 is unreachable (the result
always equals the plain scan-loop output) and the result is non-empty. -/
theorem c10_length_preserved_fallback_unreachable (f : List Nat) :
    goFilepathBase f ≠ [] ∧
    (sanitise f).length = (goFilepathBase f).length ∧
    sanitise f = sanitiseLoop true (goFilepathBase f) ∧
    sanitise f ≠ [] := by
  refine ⟨goFilepathBase_ne_nil f, ?_, sanitise_eq_loop f, sanitise_ne_nil f⟩
  rw [sanitise_eq_loop]
  exact sanitiseLoop_length true (goFilepathBase f)

/-- Witness for C10 at the concrete name `"x"`. -/
theorem c10_witness :
    (sanitise (strBytes ("x"))).length = (goFilepathBase (strBytes ("x"))).length :=
  (c10_length_preserved_fallback_unreachable (strBytes ("x"))).2.1

/-- C4 counterexample: `sanitise "123.txt"` starts with an underscore (code
95), which is not a letter — refuting "starts with a letter". -/
theorem c4_counterexample_leading_underscore :
    (sanitise (strBytes ("123.txt"))).head? = some 95 ∧ goIsLetter 95 = false := by
  decide

/-- C4 amended: for every filename `f`, `sanitise f` is non-empty, every
output code point is a letter, a digit, or an underscore, and the first output
code point is a letter or an underscore (never a digit); determinism holds
because `sanitise` is a pure function. -/
theorem c4_amended_identifier_shape (f : List Nat) :
    sanitise f ≠ [] ∧
    (∀ c, c ∈ sanitise f → goIsLetter c = true ∨ goIsNumber c = true ∨ c = 95) ∧
    (∀ c, (sanitise f).head? = some c → goIsLetter c = true ∨ c = 95) := by
  refine ⟨sanitise_ne_nil f, ?_, ?_⟩
  · rw [sanitise_eq_loop]
    exact fun c hc => sanitiseLoop_mem true (goFilepathBase f) c hc
  · rw [sanitise_eq_loop]
    intro c hc
    rcases hb : goFilepathBase f with _ | ⟨r, rest⟩
    · exact absurd hb (goFilepathBase_ne_nil f)
    · rw [hb, sanitiseLoop_head] at hc
      by_cases hl : goIsLetter r
      · rw [if_pos hl] at hc
        exact Or.inl (Option.some_injective _ hc ▸ hl)
      · rw [if_neg hl] at hc
        exact Or.inr (Option.some_injective _ hc).symm

/-- Witness for C4 (amended) at the concrete name `"a.txt"`. -/
theorem c4_witness : goIsLetter 97 = true ∨ 97 = 95 :=
  (c4_amended_identifier_shape (strBytes ("a.txt"))).2.2 97 (by decide)

/-- C5: position `i` of `sanitise f` keeps the base's code point verbatim if it
is a letter, keeps it if it is a digit and a letter occurs somewhere before it
in the base, and is an underscore otherwise; consequently a base without
letters sanitises to all underscores (digits included). -/
theorem c5_keep_rule (f : List Nat) (i : Nat) :
    ((sanitise f).getD i 0 =
      if i < (goFilepathBase f).length then
        (if goIsLetter ((goFilepathBase f).getD i 0) then (goFilepathBase f).getD i 0
         else if goIsNumber ((goFilepathBase f).getD i 0)
            && ((goFilepathBase f).take i).any goIsLetter then (goFilepathBase f).getD i 0
         else 95)
      else 0) ∧
    ((goFilepathBase f).all (fun r => !goIsLetter r) →
      sanitise f = List.replicate (goFilepathBase f).length 95) := by
  constructor
  · rw [sanitise_eq_loop, sanitiseLoop_getD]
    simp
  · intro h
    rw [sanitise_eq_loop, sanitiseLoop_no_letters (goFilepathBase f) h]

/-- Witness for C5 at the all-digit name `"123"`. -/
theorem c5_witness :
    (sanitise (strBytes ("123"))).getD 0 0 = 95 ∧
    sanitise (strBytes ("123")) = List.replicate 3 95 := by
  constructor
  · rw [(c5_keep_rule (strBytes ("123")) 0).1]
    decide
  · rw [(c5_keep_rule (strBytes ("123")) 0).2 (by decide)]
    decide

/-- C6 counterexample: the base name `"--"` consists entirely of
non-identifier characters, yet `sanitise` returns `"__"`, not `"_"`. -/
theorem c6_counterexample_two_underscores :
    sanitise (strBytes ("--")) = strBytes ("__") ∧ strBytes ("__") ≠ strBytes ("_") := by
  decide

/-- C6 amended: when the base name consists entirely of non-identifier code
points, `sanitise` returns one underscore per base code point; it returns
exactly `"_"` precisely when that base has one code point (as for the empty
path, whose base is `"."`, or a separators-only path, whose base is `"/"`). -/
theorem c6_amended_underscores_per_code_point (f : List Nat)
    (h : (goFilepathBase f).all (fun r => !goIsLetter r && !goIsNumber r)) :
    sanitise f = List.replicate (goFilepathBase f).length 95 ∧
    ((goFilepathBase f).length = 1 → sanitise f = [95]) := by
  have hrep : sanitise f = List.replicate (goFilepathBase f).length 95 := by
    rw [sanitise_eq_loop, sanitiseLoop_no_identifier (goFilepathBase f) h]
  refine ⟨hrep, fun h1 => ?_⟩
  rw [hrep, h1]
  rfl

/-- Witness for C6 (amended) at the empty path, whose base is `"."`. -/
theorem c6_witness : sanitise (strBytes ("")) = [95] :=
  (c6_amended_underscores_per_code_point (strBytes ("")) (by decide)).2 (by decide)

/-! ## Helper lemmas: the read-loop chunking -/

theorem readLoopF_nil (fuel : Nat) : readLoopF fuel [] = [] := by
  cases fuel <;> rfl

theorem readLoopF_fuel (fuel : Nat) :
    ∀ (fuel' : Nat) (l : List Nat), l.length ≤ fuel → l.length ≤ fuel' →
      readLoopF fuel l = readLoopF fuel' l := by
  induction fuel with
  | zero =>
    intro fuel' l h _
    have hl : l = [] := List.length_eq_zero.mp (Nat.le_zero.mp h)
    subst hl
    rw [readLoopF_nil, readLoopF_nil]
  | succ k ih =>
    intro fuel' l h h'
    match l, fuel' with
    | [], f => rw [readLoopF_nil, readLoopF_nil]
    | a :: t, 0 => simp at h'
    | a :: t, k' + 1 =>
      show (if (a :: t).length < 12 then [a :: t]
            else (a :: t).take 12 :: readLoopF k ((a :: t).drop 12)) =
           (if (a :: t).length < 12 then [a :: t]
            else (a :: t).take 12 :: readLoopF k' ((a :: t).drop 12))
      by_cases h12 : (a :: t).length < 12
      · simp only [List.length_cons] at h12
        simp [h12]
      · rw [if_neg h12, if_neg h12]
        have hd : ((a :: t).drop 12).length ≤ k := by
          simp only [List.length_drop]
          omega
        have hd' : ((a :: t).drop 12).length ≤ k' := by
          simp only [List.length_drop]
          omega
        rw [ih k' _ hd hd']

theorem readLoop_nil : readLoop [] = [] := rfl

theorem readLoop_eq (l : List Nat) :
    readLoop l = if l = [] then []
      else if l.length < 12 then [l]
      else l.take 12 :: readLoop (l.drop 12) := by
  match l with
  | [] => rfl
  | a :: t =>
    show readLoopF (a :: t).length (a :: t) = _
    rw [if_neg (by simp)]
    show (if (a :: t).length < 12 then [a :: t]
          else (a :: t).take 12 :: readLoopF t.length ((a :: t).drop 12)) = _
    by_cases h12 : (a :: t).length < 12
    · simp only [List.length_cons] at h12
      simp [h12]
    · rw [if_neg h12, if_neg h12]
      unfold readLoop
      rw [readLoopF_fuel t.length ((a :: t).drop 12).length ((a :: t).drop 12)
        (by simp [List.length_drop]) (Nat.le_refl _)]

theorem readLoop_ne_nil (l : List Nat) (h : l ≠ []) : readLoop l ≠ [] := by
  rw [readLoop_eq, if_neg h]
  by_cases h1 : l.length < 12 <;> simp [h1]

theorem readLoop_length (l : List Nat) : (readLoop l).length = (l.length + 11) / 12 := by
  rw [readLoop_eq]
  by_cases h0 : l = []
  · simp [h0]
  · by_cases h1 : l.length < 12
    · have hp : 0 < l.length := List.length_pos.mpr h0
      rw [if_neg h0, if_pos h1]
      simp only [List.length_singleton]
      omega
    · rw [if_neg h0, if_neg h1]
      have ih := readLoop_length (l.drop 12)
      simp only [List.length_cons, ih, List.length_drop]
      omega
termination_by l.length
decreasing_by
  simp only [List.length_drop]
  omega

theorem readLoop_flatten (l : List Nat) : (readLoop l).flatten = l := by
  rw [readLoop_eq]
  by_cases h0 : l = []
  · simp [h0]
  · by_cases h1 : l.length < 12
    · simp [h0, h1]
    · rw [if_neg h0, if_neg h1]
      have ih := readLoop_flatten (l.drop 12)
      simp [ih]
termination_by l.length
decreasing_by
  simp only [List.length_drop]
  omega

theorem readLoop_dropLast_full (l : List Nat) :
    ∀ c ∈ (readLoop l).dropLast, c.length = 12 := by
  rw [readLoop_eq]
  by_cases h0 : l = []
  · simp [h0]
  · by_cases h1 : l.length < 12
    · simp [h0, h1]
    · rw [if_neg h0, if_neg h1]
      intro c hc
      by_cases hd : l.drop 12 = []
      · rw [hd, readLoop_nil] at hc
        simp at hc
      · have hne := readLoop_ne_nil _ hd
        rw [List.dropLast_cons_of_ne_nil hne] at hc
        rcases List.mem_cons.mp hc with rfl | hc2
        · simp only [List.length_take]
          omega
        · exact readLoop_dropLast_full (l.drop 12) c hc2
termination_by l.length
decreasing_by
  simp only [List.length_drop]
  omega

theorem readLoop_getLast_length (l : List Nat) (h : l ≠ []) :
    (readLoop l).getLast?.map List.length
      = some (if l.length % 12 = 0 then 12 else l.length % 12) := by
  rw [readLoop_eq, if_neg h]
  by_cases h1 : l.length < 12
  · rw [if_pos h1]
    have hp : 0 < l.length := List.length_pos.mpr h
    have hm : l.length % 12 = l.length := Nat.mod_eq_of_lt h1
    rw [if_neg (by omega)]
    simp [hm]
  · rw [if_neg h1]
    by_cases hd : l.drop 12 = []
    · have hlen : l.length = 12 := by
        have := List.drop_eq_nil_iff.mp hd
        omega
      rw [hd, readLoop_nil]
      simp [List.length_take, hlen]
    · have hne := readLoop_ne_nil _ hd
      obtain ⟨b, t, hbt⟩ := List.exists_cons_of_ne_nil hne
      rw [hbt, List.getLast?_cons_cons, ← hbt, readLoop_getLast_length (l.drop 12) hd]
      have h12 : 12 ≤ l.length := by omega
      congr 1
      simp only [List.length_drop]
      have : (l.length - 12) % 12 = l.length % 12 := by omega
      rw [this]
termination_by l.length
decreasing_by
  simp only [List.length_drop]
  omega

/-! ## Claim theorem: chunking (C7) -/

/-- C7: on the uncompressed path, the data block has exactly
`ceil(L/12) = (L+11)/12` content lines; every line but the last renders a
12-byte chunk, the last renders `L mod 12` bytes (or 12 when `L` is a positive
multiple of 12); the chunks concatenate back to the input; and for the empty
input the block is just header plus closing brace, with zero content lines. -/
theorem c7_chunking (input : List Nat) :
    (readLoop input).length = (input.length + 11) / 12 ∧
    (∀ c ∈ (readLoop input).dropLast, c.length = 12) ∧
    (input ≠ [] → (readLoop input).getLast?.map List.length
      = some (if input.length % 12 = 0 then 12 else input.length % 12)) ∧
    (readLoop input).flatten = input ∧
    (∀ name s : List Nat, dataBlock name s [] = dataHeader name s ++ [125, 10]) := by
  refine ⟨readLoop_length input, readLoop_dropLast_full input,
    fun h => readLoop_getLast_length input h, readLoop_flatten input, fun name s => ?_⟩
  simp [dataBlock, readLoop_nil]

/-- Witness for C7 at a concrete 13-byte input (two lines: 12 bytes then 1). -/
theorem c7_witness :
    (readLoop (strBytes ("0123456789abc"))).length = 2 ∧
    (readLoop (strBytes ("0123456789abc"))).getLast?.map List.length = some 1 := by
  have h := c7_chunking (strBytes ("0123456789abc"))
  refine ⟨h.1.trans (by decide), (h.2.2.1 (by decide)).trans (by decide)⟩

/-! ## Helper lemmas: rendering and decoding hex entries -/

theorem hexVal_hexDigit (n : Nat) (h : n < 16) : hexVal (hexDigit n) = n := by
  unfold hexVal hexDigit
  by_cases h10 : n < 10
  · rw [if_pos h10, if_pos (by omega)]
    omega
  · rw [if_neg h10, if_neg (by omega)]
    omega

theorem decodeEntries_byteEntry (b : Nat) (hb : b < 256) (rest : List Nat) :
    decodeEntries (byteEntry b ++ rest) = b :: decodeEntries rest := by
  show (hexVal (hexDigit (b / 16 % 16)) * 16 + hexVal (hexDigit (b % 16)))
      :: decodeEntries rest = b :: decodeEntries rest
  rw [hexVal_hexDigit _ (by omega), hexVal_hexDigit _ (by omega)]
  congr 1
  omega

theorem flatten_byteEntry_ne_nil (c : List Nat) (h : c ≠ []) :
    (c.map byteEntry).flatten ≠ [] := by
  match c with
  | b :: c' => simp [byteEntry, entryText]

theorem decode_lineBody (c : List Nat) (hc : ∀ b ∈ c, b < 256) (h : c ≠ [])
    (rest : List Nat) :
    decodeEntries ((c.map byteEntry).flatten.dropLast ++ 10 :: rest)
      = c ++ decodeEntries rest := by
  match c with
  | [b] =>
    have hb : b < 256 := hc b (by simp)
    show decodeEntries ((byteEntry b ++ []).dropLast ++ 10 :: rest) = _
    rw [List.append_nil]
    show decodeEntries (48 :: 120 :: hexDigit (b / 16 % 16) :: hexDigit (b % 16)
        :: ([44] ++ 10 :: rest)) = _
    rw [show decodeEntries (48 :: 120 :: hexDigit (b / 16 % 16) :: hexDigit (b % 16)
        :: ([44] ++ 10 :: rest))
        = (hexVal (hexDigit (b / 16 % 16)) * 16 + hexVal (hexDigit (b % 16)))
          :: decodeEntries rest from rfl]
    rw [hexVal_hexDigit _ (by omega), hexVal_hexDigit _ (by omega)]
    show [b / 16 % 16 * 16 + b % 16] ++ decodeEntries rest = [b] ++ decodeEntries rest
    congr 2
    omega
  | b :: b2 :: c' =>
    have hb : b < 256 := hc b (by simp)
    have hne : ((b2 :: c').map byteEntry).flatten ≠ [] :=
      flatten_byteEntry_ne_nil (b2 :: c') (by simp)
    show decodeEntries ((byteEntry b ++ ((b2 :: c').map byteEntry).flatten).dropLast
        ++ 10 :: rest) = _
    rw [List.dropLast_append_of_ne_nil _ hne, List.append_assoc,
      decodeEntries_byteEntry b hb]
    rw [decode_lineBody (b2 :: c') (fun x hx => hc x (by simp [hx])) (by simp) rest]
    rfl

theorem decode_lineFor (c : List Nat) (hc : ∀ b ∈ c, b < 256) (rest : List Nat) :
    decodeEntries (lineFor c ++ rest) = c ++ decodeEntries rest := by
  match c with
  | [] => rfl
  | b :: c' =>
    show decodeEntries (9 :: (((b :: c').map byteEntry).flatten.dropLast ++ [10] ++ rest))
      = _
    rw [show decodeEntries (9 :: (((b :: c').map byteEntry).flatten.dropLast
        ++ [10] ++ rest))
        = decodeEntries (((b :: c').map byteEntry).flatten.dropLast ++ [10] ++ rest)
        from rfl]
    rw [List.append_assoc]
    exact decode_lineBody (b :: c') hc (by simp) rest

theorem decode_lines (chunks : List (List Nat))
    (h : ∀ c ∈ chunks, ∀ b ∈ c, b < 256) (rest : List Nat) :
    decodeEntries ((chunks.map lineFor).flatten ++ rest)
      = chunks.flatten ++ decodeEntries rest := by
  induction chunks with
  | nil => rfl
  | cons c cs ih =>
    show decodeEntries (lineFor c ++ (cs.map lineFor).flatten ++ rest) = _
    rw [List.append_assoc, decode_lineFor c (h c (by simp)),
      ih (fun d hd => h d (by simp [hd])), List.flatten_cons, List.append_assoc]

theorem readLoop_chunk_bytes (input : List Nat) (h : ∀ b ∈ input, b < 256) :
    ∀ c ∈ readLoop input, ∀ b ∈ c, b < 256 := by
  intro c hc b hb
  refine h b ?_
  have : b ∈ (readLoop input).flatten := List.mem_flatten.mpr ⟨c, hc, hb⟩
  rwa [readLoop_flatten] at this

theorem intercalate_cons₂ (sep x y : List Nat) (l : List (List Nat)) :
    List.intercalate sep (x :: y :: l) = x ++ sep ++ List.intercalate sep (y :: l) := by
  simp [List.intercalate, List.intersperse]

theorem flatten_byteEntry_eq_intercalate (c : List Nat) (h : c ≠ []) :
    (c.map byteEntry).flatten = List.intercalate [44, 32] (c.map entryText) ++ [44, 32] := by
  match c with
  | [b] =>
    show byteEntry b ++ [] = List.intercalate [44, 32] [entryText b] ++ [44, 32]
    rw [List.append_nil, show List.intercalate [44, 32] [entryText b] = entryText b by
      simp [List.intercalate, List.intersperse]]
    rfl
  | b :: b2 :: c' =>
    show byteEntry b ++ ((b2 :: c').map byteEntry).flatten = _
    rw [flatten_byteEntry_eq_intercalate (b2 :: c') (by simp)]
    rw [show (b :: b2 :: c').map entryText = entryText b :: entryText b2 :: c'.map entryText
      from rfl, intercalate_cons₂,
      show entryText b2 :: c'.map entryText = (b2 :: c').map entryText from rfl]
    show (entryText b ++ [44, 32]) ++ _ = _
    simp [byteEntry]

/-! ## Claim theorems: line rendering (C3) -/

/-- C3 counterexample: for input `"ABC"` (bytes 0x41 0x42 0x43), name
`"test.txt"`, no compression and no hashing, the emitted lines are exactly as
listed — the data line is tab-indented and keeps a trailing comma (only the
trailing space of `"0x%02x, "` is trimmed by `data[:len(data)-1]`), so no line
has content exactly `"0x41, 0x42, 0x43"`. -/
theorem c3_counterexample_trailing_comma_kept :
    splitLines (embedText false (strBytes ("test.txt")) (strBytes ("ABC")))
      = [[], strBytes ("// test.txt"), strBytes ("var test_txt = []byte\x7b"),
         strBytes ("\t0x41, 0x42, 0x43,"), strBytes ("\x7d"), []] ∧
    strBytes ("0x41, 0x42, 0x43") ∉
      splitLines (embedText false (strBytes ("test.txt")) (strBytes ("ABC"))) := by
  constructor
  · decide
  · decide

/-- C3 amended: each emitted data line is a tab, the bytes rendered as
two-hex-digit `0x`-prefixed entries separated by comma-and-space, with only
the trailing *space* after the final byte trimmed — the trailing comma is
kept — then a newline; for input `[0x41, 0x42, 0x43]` the output contains the
line `"\t0x41, 0x42, 0x43,"`. -/
theorem c3_amended_line_format (chunk : List Nat) (h : chunk ≠ []) :
    lineFor chunk = [9] ++ List.intercalate [44, 32] (chunk.map entryText) ++ [44, 10] ∧
    strBytes ("\t0x41, 0x42, 0x43,") ∈
      splitLines (embedText false (strBytes ("test.txt")) (strBytes ("ABC"))) := by
  constructor
  · unfold lineFor
    rw [flatten_byteEntry_eq_intercalate chunk h]
    rw [show List.intercalate [44, 32] (chunk.map entryText) ++ [44, 32]
        = (List.intercalate [44, 32] (chunk.map entryText) ++ [44]) ++ [32] by simp]
    rw [List.dropLast_concat]
    simp
  · decide

/-- Witness for C3 (amended) at the one-byte chunk `[0x41]`. -/
theorem c3_witness :
    lineFor [65] = [9] ++ List.intercalate [44, 32] ([65].map entryText) ++ [44, 10] :=
  (c3_amended_line_format [65] (by decide)).1

/-! ## Claim theorems: what the emitted entries encode (C2) and what the
emitted hash covers (C1) -/

/-- C2 (code evaluation): the hex entries of the emitted data block always
decode to the *raw* input bytes.  The data block is built before any
compression is applied (with `-gzip` the whole emitted text, not the data, is
what gets compressed), so the entries never encode the gzip-compressed input
that the claim describes. -/
theorem c2_entries_decode_to_raw_input (input : List Nat) (h : ∀ b ∈ input, b < 256) :
    decodeEntries (dataBlock (strBytes ("test.txt")) (sanitise (strBytes ("test.txt"))) input)
      = input := by
  unfold dataBlock
  rw [List.append_assoc]
  rw [show decodeEntries (dataHeader (strBytes ("test.txt")) (sanitise (strBytes ("test.txt")))
      ++ (((readLoop input).map lineFor).flatten ++ [125, 10]))
      = decodeEntries (((readLoop input).map lineFor).flatten ++ [125, 10]) from rfl]
  rw [decode_lines (readLoop input) (readLoop_chunk_bytes input h) [125, 10]]
  rw [readLoop_flatten]
  show input ++ [] = input
  exact List.append_nil input

/-- Witness for C2 at the input `"ABC"`. -/
theorem c2_witness :
    decodeEntries (dataBlock (strBytes ("test.txt")) (sanitise (strBytes ("test.txt")))
      (strBytes ("ABC"))) = strBytes ("ABC") :=
  c2_entries_decode_to_raw_input (strBytes ("ABC")) (by decide)

/-- C1 (code evaluation at the failing input): with hashing enabled, name
`"test.txt"`, input `"ABC"`, the emitted hash literal decodes to the SHA1 of
the *data block text* (the bytes the `io.MultiWriter`-attached hasher
observed), which differs from the SHA1 of the raw input bytes; the emitted
text is the data block followed by that hash block.  The hasher is attached
downstream of the caller and upstream of the compressor, so with `-gzip` it
observes pre-compression bytes, never the compressed bytes. -/
theorem c1_hash_literal_is_digest_of_emitted_text :
    decodeEntries (hashBlock (strBytes ("test.txt")) (sanitise (strBytes ("test.txt")))
        (sha1 (dataBlock (strBytes ("test.txt")) (sanitise (strBytes ("test.txt")))
          (strBytes ("ABC")))))
      = sha1 (dataBlock (strBytes ("test.txt")) (sanitise (strBytes ("test.txt")))
          (strBytes ("ABC"))) ∧
    sha1 (dataBlock (strBytes ("test.txt")) (sanitise (strBytes ("test.txt")))
        (strBytes ("ABC")))
      ≠ sha1 (strBytes ("ABC")) ∧
    embedText true (strBytes ("test.txt")) (strBytes ("ABC"))
      = dataBlock (strBytes ("test.txt")) (sanitise (strBytes ("test.txt")))
          (strBytes ("ABC"))
        ++ hashBlock (strBytes ("test.txt")) (sanitise (strBytes ("test.txt")))
            (sha1 (dataBlock (strBytes ("test.txt")) (sanitise (strBytes ("test.txt")))
              (strBytes ("ABC")))) := by
  refine ⟨by decide, by decide, by decide⟩

/-! ## Helper lemmas: the control path -/

theorem finishClose_spec (cf : Bool) (e : Option EmbedError) :
    (finishClose true cf e).2 = 1 ∧
    (finishClose true cf e).1 = (match (finishClose true false e).1 with
      | some e0 => some e0
      | none => if cf then some EmbedError.closeErr else none) := by
  cases e <;> cases cf <;> simp [finishClose]

theorem writeSeq_none (idx k : Nat) : writeSeq none idx k = (none, idx + k) := by
  induction k generalizing idx with
  | zero => simp [writeSeq]
  | succ k ih =>
    simp only [writeSeq, ih]
    rw [if_neg (by simp : ¬ (none : Option Nat) = some idx)]
    have h : idx + 1 + k = idx + (k + 1) := by omega
    rw [h]

theorem embedLoop_none (input : List Nat) (sf : Bool) (idx : Nat) :
    embedLoop none sf idx input =
      ((if sf then some EmbedError.srcErr else none),
       idx + (if sf then input.length / 12 else (readLoop input).length),
       (if sf then input.length / 12 else (readLoop input).length)) := by
  rw [embedLoop]
  by_cases h0 : input.length = 0
  · have hnil : input = [] := List.length_eq_zero.mp h0
    have hr : readLoop input = [] := by rw [hnil, readLoop_nil]
    rw [if_pos h0]
    cases sf <;> simp [hr, h0]
  · by_cases h1 : input.length < 12
    · rw [if_neg h0, if_pos h1]
      have hr : (readLoop input).length = 1 := by
        rw [readLoop_length]
        omega
      have hd : input.length / 12 = 0 := by omega
      cases sf <;> simp [hr, hd]
    · rw [if_neg h0, if_neg h1]
      rw [if_neg (by simp : ¬ (none : Option Nat) = some idx)]
      rw [embedLoop_none (input.drop 12) sf (idx + 1)]
      have hrl : (readLoop input).length = (readLoop (input.drop 12)).length + 1 := by
        rw [readLoop_length, readLoop_length]
        simp only [List.length_drop]
        omega
      have hdl : (input.drop 12).length = input.length - 12 := by simp
      cases sf <;> simp [hrl, hdl, Prod.mk.injEq] <;> omega
termination_by input.length
decreasing_by
  simp only [List.length_drop]
  omega

/-! ## Claim theorems: the deferred close (C8) and end-of-stream handling (C9) -/

/-- C8: with compression enabled, every exit path of `Embed` — success,
sink-write failure (header, data line, brace, or hash block), or source-read
failure — closes the compressor exactly once, and the returned error is the
main operation's error when there is one, else the close error when closing
failed, else none (first failure wins; a close failure overrides only a
prior success). -/
theorem c8_close_exactly_once_error_policy (shaFlag : Bool) (env : EmbedEnv) :
    (embedRun true shaFlag env).2 = 1 ∧
    (embedRun true shaFlag env).1 =
      (match (embedRun true shaFlag
          { input := env.input, srcFails := env.srcFails,
            sinkFailAt := env.sinkFailAt, closeFails := false }).1 with
       | some e => some e
       | none => if env.closeFails then some EmbedError.closeErr else none) := by
  obtain ⟨inp, sf, sfa, cf⟩ := env
  have key := finishClose_spec cf
  by_cases h0 : sfa = some 0
  · have red : ∀ cfx : Bool, embedRun true shaFlag ⟨inp, sf, sfa, cfx⟩
        = finishClose true cfx (some EmbedError.sinkErr) := by
      intro cfx
      simp [embedRun, h0]
    rw [red cf, red false]
    exact key (some EmbedError.sinkErr)
  · cases hE : (embedLoop sfa sf 1 inp).1 with
    | some e =>
      have red : ∀ cfx : Bool, embedRun true shaFlag ⟨inp, sf, sfa, cfx⟩
          = finishClose true cfx (some e) := by
        intro cfx
        simp only [embedRun]
        rw [if_neg h0]
        simp only [hE]
      rw [red cf, red false]
      exact key (some e)
    | none =>
      by_cases h1 : sfa = some (embedLoop sfa sf 1 inp).2.1
      · have red : ∀ cfx : Bool, embedRun true shaFlag ⟨inp, sf, sfa, cfx⟩
            = finishClose true cfx (some EmbedError.sinkErr) := by
          intro cfx
          simp only [embedRun]
          rw [if_neg h0]
          simp only [hE]
          rw [if_pos h1]
        rw [red cf, red false]
        exact key (some EmbedError.sinkErr)
      · cases shaFlag with
        | true =>
          have red : ∀ cfx : Bool, embedRun true true ⟨inp, sf, sfa, cfx⟩
              = finishClose true cfx
                  (writeSeq sfa ((embedLoop sfa sf 1 inp).2.1 + 1) 4).1 := by
            intro cfx
            simp only [embedRun]
            rw [if_neg h0]
            simp only [hE]
            rw [if_neg h1]
            simp
          rw [red cf, red false]
          exact key (writeSeq sfa ((embedLoop sfa sf 1 inp).2.1 + 1) 4).1
        | false =>
          have red : ∀ cfx : Bool, embedRun true false ⟨inp, sf, sfa, cfx⟩
              = finishClose true cfx none := by
            intro cfx
            simp only [embedRun]
            rw [if_neg h0]
            simp only [hE]
            rw [if_neg h1]
            simp
          rw [red cf, red false]
          exact key none

/-- C9: with a non-failing sink, the read loop terminates without error on a
clean end of stream and on a truncated one alike (any input length, so both
the `io.EOF` zero-read case and the `io.ErrUnexpectedEOF` short-chunk case),
emitting the normal `readLoop` chunk count; a real (non-end-of-stream) read
error aborts with exactly that error, after the full 12-byte chunks were
written; and the whole encode then returns no error on a clean source for any
flag combination. -/
theorem c9_end_of_stream_is_not_an_error (input : List Nat) (sf : Bool) :
    (embedLoop none sf 1 input).1 = (if sf then some EmbedError.srcErr else none) ∧
    (embedLoop none sf 1 input).2.2
      = (if sf then input.length / 12 else (readLoop input).length) ∧
    (∀ compressFlag shaFlag : Bool,
      (embedRun compressFlag shaFlag
        { input := input, srcFails := false, sinkFailAt := none,
          closeFails := false }).1 = none) := by
  refine ⟨by rw [embedLoop_none], by rw [embedLoop_none], ?_⟩
  intro compressFlag shaFlag
  cases compressFlag <;> cases shaFlag <;>
    simp [embedRun, embedLoop_none, writeSeq_none, finishClose]
